import Mathlib

/-!
Verification development for the `ai-journal-analysis` pipeline
(`simple_ai_processor.py` and `providers/`).

The Python source is shallowly embedded: filesystem discovery, the remote
model calls and the tokenizer library are abstracted as explicit oracle
arguments, and every pure computation (sorting, cursor filtering, batch
slicing, config rewriting, provider dispatch, payload construction) is
translated function-by-function from the source.
-/

/-- A discovered input document: its path string and its modification time
(`f.stat().st_mtime`).  Discovery order of the list models the order
`input_path.rglob("*.md")` yields the files (simple_ai_processor.py:102). -/
structure Doc where
  path : String
  mtime : Int
deriving DecidableEq, Repr

/-- The comparison underlying `all_files.sort(key=lambda f: f.stat().st_mtime)`
(simple_ai_processor.py:105): ascending modification time.  Python `list.sort`
is a stable sort, embedded here as `List.mergeSort`, which is also stable. -/
def mtimeLe (a b : Doc) : Bool := a.mtime ≤ b.mtime

/-- The discovered documents sorted by modification time, oldest first
(simple_ai_processor.py:102-105). -/
def sortedDocs (docs : List Doc) : List Doc := docs.mergeSort mtimeLe

/-- The sorted document list converted to string paths
(simple_ai_processor.py:108: `[str(f) for f in all_files]`). -/
def sortedPaths (docs : List Doc) : List String := (sortedDocs docs).map Doc.path

/-- `_get_input_files` (simple_ai_processor.py:94-119), with the filesystem
scan abstracted as the list `docs` of discovered documents.
Line 111 `if last_processed and last_processed in file_paths:` — Python
truthiness makes both `None` and the empty string skip the branch;
line 112-113 drop everything up to and including the cursor's first index;
line 116 `if max_batch_size and max_batch_size > 0:` truncates to the first
`max_batch_size` entries. -/
def get_input_files (docs : List Doc) (last_processed : Option String)
    (max_batch_size : Option Int) : List String :=
  let file_paths := sortedPaths docs
  let file_paths :=
    match last_processed with
    | some lp =>
        if lp != "" && file_paths.contains lp then
          file_paths.drop (file_paths.indexOf lp + 1)
        else file_paths
    | none => file_paths
  match max_batch_size with
  | some k => if 0 < k then file_paths.take k.toNat else file_paths
  | none => file_paths

/-- Line 165: `batch_size = max_batch_size if max_batch_size and
max_batch_size > 0 else 1` — `None`, `0` and negative values all fall back
to `1`. -/
def effectiveBatchSize : Option Int → Int
  | none => 1
  | some k => if 0 < k then k else 1

/-- The batch slices produced by the loop header at
simple_ai_processor.py:167-168: `for i in range(0, len(files), batch_size)`
with `batch = files[i:i+batch_size]`.  `List.range' 0 n step` is Python's
`range(0, n*step, step)`; the count `(len + bs - 1) / bs` is the number of
elements of `range(0, len, bs)` for `bs ≥ 1`. -/
def plan_batches (files : List String) (max_batch_size : Option Int) :
    List (List String) :=
  let bs := (effectiveBatchSize max_batch_size).toNat
  (List.range' 0 ((files.length + bs - 1) / bs) bs).map
    fun i => (files.drop i).take bs

/-- Recursive chunking helper: for `bs ≥ 1`, `chunks bs` agrees with
`plan_batches` (proved below) and is convenient for induction. -/
def chunks (bs : ℕ) : List α → List (List α)
  | [] => []
  | x :: xs => (x :: xs.take (bs - 1)) :: chunks bs (xs.drop (bs - 1))
termination_by l => l.length
decreasing_by
  simp only [List.length_drop, List.length_cons]
  omega

/-- One run of the batch loop of `main` (simple_ai_processor.py:167-197).
The body of the `try` block — reading the batch's files, the provider call
and the artifact write — is abstracted as `process`, with `none` meaning an
exception was raised somewhere in the block.  On success the config's
`last_processed_file` is set to `batch[-1]` and saved (lines 189-191); on
exception the loop `break`s without touching the config (lines 193-197).
Returns the persisted cursor after the run and the number of batches
attempted. -/
def runLoop (process : List String → Option String) :
    List (List String) → Option String → Option String × ℕ
  | [], cursor => (cursor, 0)
  | b :: bs, cursor =>
    match process b with
    | some _ =>
        let r := runLoop process bs (some b.getLast!)
        (r.1, r.2 + 1)
    | none => (cursor, 1)

/-! ### Checkpoint persistence (`_save_config`, simple_ai_processor.py:88-91) -/

/-- Primitive file-mutation effects.  `open(path, "w")` truncates the file,
`json.dump` then appends the serialized bytes; an atomic replace
(temp-file-then-rename) would instead be a single `renameReplace`. -/
inductive WriteOp where
  | truncate
  | write (s : String)
  | renameReplace (s : String)
deriving DecidableEq, Repr

/-- Effect of one primitive operation on the stored file content. -/
def applyOp : String → WriteOp → String
  | _, .truncate => ""
  | cur, .write s => cur ++ s
  | _, .renameReplace s => s

/-- The effect sequence of `_save_config` (simple_ai_processor.py:88-91):
`open(config_path, "w")` truncates in place, then `json.dump` writes the
serialized config.  There is no temp file and no rename. -/
def saveConfigOps (data : String) : List WriteOp :=
  [.truncate, .write data]

/-- Every file content observable if execution stops after any prefix of the
operation sequence, starting from stored content `old`. -/
def crashStates (old : String) (ops : List WriteOp) : List String :=
  (List.range (ops.length + 1)).map fun i => (ops.take i).foldl applyOp old

/-- An operation sequence is an atomic replace of `old` by `new` when an
interruption at any point leaves either the old or the new content — never
anything in between. -/
def atomicReplace (old : String) (ops : List WriteOp) (new : String) : Prop :=
  ∀ s ∈ crashStates old ops, s = old ∨ s = new

instance (old : String) (ops : List WriteOp) (new : String) :
    Decidable (atomicReplace old ops new) := by
  unfold atomicReplace
  infer_instance

/-! ### Config rewriting (simple_ai_processor.py:189-191) -/

/-- JSON scalar values as they occur in the config file. -/
inductive JVal where
  | str (s : String)
  | num (n : Int)
  | null
deriving DecidableEq, Repr

/-- The loaded config: a JSON object, i.e. an ordered key-value map. -/
abbrev Config := List (String × JVal)

/-- Python dict assignment `config[k] = v` on a JSON object: an existing key
is updated in place (insertion order preserved), a new key is appended. -/
def dictSet (cfg : Config) (k : String) (v : JVal) : Config :=
  if cfg.any (fun p => p.1 == k) then
    cfg.map fun p => if p.1 == k then (k, v) else p
  else cfg ++ [(k, v)]

/-- Lines 189-190: `config['last_processed_file'] = batch[-1]`, the in-memory
update that `_save_config` then persists in full. -/
def updateConfigAfterBatch (cfg : Config) (batch : List String) : Config :=
  dictSet cfg "last_processed_file" (.str batch.getLast!)

/-! ### Providers (`providers/`) -/

/-- A constructed provider, tagged by vendor and carrying the model string
passed to its constructor. -/
inductive Provider where
  | claude (model : String)
  | openai (model : String)
deriving DecidableEq, Repr

/-- `ClaudeProvider.__init__` (claude_provider.py:11-31): reads
`ANTHROPIC_API_KEY` from the environment; `if not api_key` — absent or
empty — raises `ValueError`. -/
def claudeInit (env : String → Option String) (model : String) :
    Except String Provider :=
  let api_key := (env "ANTHROPIC_API_KEY").getD ""
  if api_key != "" then .ok (.claude model)
  else .error "ANTHROPIC_API_KEY environment variable is not set. Please set it in your .env file or environment variables."

/-- `OpenAIProvider.__init__` (openai_provider.py:11-30): reads
`OPENAI_API_KEY`; absent or empty raises `ValueError`. -/
def openaiInit (env : String → Option String) (model : String) :
    Except String Provider :=
  let api_key := (env "OPENAI_API_KEY").getD ""
  if api_key != "" then .ok (.openai model)
  else .error "OPENAI_API_KEY environment variable is not set. Please set it in your .env file or environment variables."

/-- The error message of factory.py:32-35 for an unrecognized model. -/
def unknownModelMsg (model : String) : String :=
  "Unknown model '" ++ model ++ "'. Model name must start with 'gpt', 'o1', 'o3' (OpenAI) or 'claude' (Anthropic)"

/-- Python `str.lower()` on a model identifier (factory.py:22), character by
character.  Model identifiers are ASCII, for which `Char.toLower` agrees
with Python's lowering. -/
def pyLower (s : String) : String := ⟨s.data.map Char.toLower⟩

/-- Python `str.startswith(pre)` as a character-list comparison. -/
def charsStartWith : List Char → List Char → Bool
  | _, [] => true
  | [], _ :: _ => false
  | a :: as, b :: bs => a == b && charsStartWith as bs

/-- Python `str.startswith` lifted to strings (factory.py:25-29). -/
def pyStartsWith (s pre : String) : Bool := charsStartWith s.data pre.data

/-- `create_provider` (factory.py:8-35): case-insensitive prefix dispatch on
the model identifier; unknown identifiers raise `ValueError` with a message
naming the identifier and the recognized prefixes. -/
def create_provider (env : String → Option String) (model : String) :
    Except String Provider :=
  let model_lower := pyLower model
  if pyStartsWith model_lower "claude" then claudeInit env model
  else if pyStartsWith model_lower "gpt" || pyStartsWith model_lower "o1"
      || pyStartsWith model_lower "o3" then openaiInit env model
  else .error (unknownModelMsg model)

/-- The composite request payload built by `OpenAIProvider.process`
(openai_provider.py:71): `f"{prompt}\n\nContent:\n{content}"`, sent as the
single user message (lines 73-78). -/
def openaiSentText (content prompt : String) : String :=
  prompt ++ "\n\nContent:\n" ++ content

/-- The composite payload built by `ClaudeProvider.process`
(claude_provider.py:65): `f"{prompt}\n\nContent:\n{content}"`, sent as the
single user message (lines 67-74). -/
def claudeSentText (content prompt : String) : String :=
  prompt ++ "\n\nContent:\n" ++ content

/-- Abstraction of the `tiktoken` library as `OpenAIProvider.estimate_tokens`
uses it: `encoding_for_model` may fail with `KeyError` (`none`);
`get_encoding` always yields an encoder.  An encoder is the total function
`s ↦ len(encoding.encode(s))`. -/
structure Tiktoken where
  encodingForModel : String → Option (String → ℕ)
  getEncoding : String → (String → ℕ)

/-- `OpenAIProvider.estimate_tokens` (openai_provider.py:32-58):
builds `full_prompt`, then tries `tiktoken` (`none` models `ImportError`);
a `KeyError` from `encoding_for_model` falls back to the `cl100k_base`
encoding; a missing library falls back to `len(full_prompt) // 4`. -/
def openaiEstimateTokens (tiktoken : Option Tiktoken) (model : String)
    (content prompt : String) : ℕ :=
  let full_prompt := prompt ++ "\n\nContent:\n" ++ content
  match tiktoken with
  | some t =>
      let encoding :=
        match t.encodingForModel model with
        | some e => e
        | none => t.getEncoding "cl100k_base"
      encoding full_prompt
  | none => full_prompt.length / 4

/-- `ClaudeProvider.estimate_tokens` (claude_provider.py:32-52): builds
`full_prompt`, tries the remote `client.count_tokens` call (which may fail
with any exception, modelled as `Except.error`), and on failure falls back
to `len(full_prompt) // 4`. -/
def claudeEstimateTokens (count_tokens : String → Except String ℕ)
    (content prompt : String) : ℕ :=
  let full_prompt := prompt ++ "\n\nContent:\n" ++ content
  match count_tokens full_prompt with
  | .ok n => n
  | .error _ => full_prompt.length / 4

/-- `OpenAIProvider.process` (openai_provider.py:60-79) with the remote chat
completion call abstracted as `api`: the argument `api` receives is the text
actually sent to the model. -/
def openaiProcess (api : String → Except String String)
    (content prompt : String) : Except String String :=
  let full_prompt := prompt ++ "\n\nContent:\n" ++ content
  api full_prompt

/-- `ClaudeProvider.process` (claude_provider.py:54-74) with the remote
messages call abstracted as `api`. -/
def claudeProcess (api : String → Except String String)
    (content prompt : String) : Except String String :=
  let full_prompt := prompt ++ "\n\nContent:\n" ++ content
  api full_prompt

/-! ### Lemmas about batch planning -/

theorem chunks_nil (bs : ℕ) : chunks bs ([] : List α) = [] := by
  simp [chunks]

theorem chunks_cons (bs : ℕ) (x : α) (xs : List α) :
    chunks bs (x :: xs) =
      (x :: xs.take (bs - 1)) :: chunks bs (xs.drop (bs - 1)) := by
  simp [chunks]

theorem chunks_eq_nil_iff (bs : ℕ) (l : List α) :
    chunks bs l = [] ↔ l = [] := by
  cases l with
  | nil => simp [chunks_nil]
  | cons x xs => simp [chunks_cons]

/-- For a positive chunk size, the `range(0, len, bs)`-style slicing of
`plan_batches` agrees with the recursive chunking. -/
theorem range'_map_slice_eq_chunks (b : ℕ) :
    ∀ l : List α,
      (List.range' 0 ((l.length + (b + 1) - 1) / (b + 1)) (b + 1)).map
          (fun i => (l.drop i).take (b + 1)) = chunks (b + 1) l
  | [] => by
    have h0 : b / (b + 1) = 0 := Nat.div_eq_of_lt (by omega)
    simp [chunks_nil, h0]
  | x :: xs => by
    have hdrop : (xs.drop b).length = xs.length - b := by
      simp
    have hcount :
        ((x :: xs).length + (b + 1) - 1) / (b + 1)
          = ((xs.drop b).length + (b + 1) - 1) / (b + 1) + 1 := by
      rcases Nat.le_total xs.length b with hle | hle
      · have e1 : (x :: xs).length + (b + 1) - 1 = xs.length + b + 1 := by
          simp only [List.length_cons]; omega
        have e2 : (xs.drop b).length + (b + 1) - 1 = b := by
          rw [hdrop]; omega
        have d1 : (xs.length + b + 1) / (b + 1) = 1 := by
          apply Nat.div_eq_of_lt_le <;> omega
        have d2 : b / (b + 1) = 0 := Nat.div_eq_of_lt (by omega)
        rw [e1, e2, d1, d2]
      · have e1 : (x :: xs).length + (b + 1) - 1 = xs.length + (b + 1) := by
          simp only [List.length_cons]; omega
        have e2 : (xs.drop b).length + (b + 1) - 1 = xs.length := by
          rw [hdrop]; omega
        rw [e1, e2, Nat.add_div_right _ (by omega : 0 < b + 1)]
    rw [hcount, List.range'_succ, List.map_cons]
    have hhead : ((x :: xs).drop 0).take (b + 1) = x :: xs.take b := by
      simp
    have htail :
        (List.range' (0 + (b + 1)) (((xs.drop b).length + (b + 1) - 1) / (b + 1)) (b + 1)).map
            (fun i => ((x :: xs).drop i).take (b + 1))
          = chunks (b + 1) (xs.drop b) := by
      have hshift : List.range' (0 + (b + 1)) (((xs.drop b).length + (b + 1) - 1) / (b + 1)) (b + 1)
          = (List.range' 0 (((xs.drop b).length + (b + 1) - 1) / (b + 1)) (b + 1)).map
              ((b + 1) + ·) := by
        rw [List.map_add_range']
        norm_num
      rw [hshift, List.map_map]
      have hfun : ((fun i => ((x :: xs).drop i).take (b + 1)) ∘ ((b + 1) + ·))
          = fun i => ((xs.drop b).drop i).take (b + 1) := by
        funext i
        simp only [Function.comp]
        congr 1
        have h1 : (x :: xs).drop ((b + 1) + i) = ((x :: xs).drop (b + 1)).drop i := by
          rw [List.drop_drop, Nat.add_comm]
        rw [h1]
        simp
      rw [hfun]
      exact range'_map_slice_eq_chunks b (xs.drop b)
    rw [hhead, htail, chunks_cons]
    simp
termination_by l => l.length
decreasing_by
  simp only [List.length_drop, List.length_cons]
  omega

theorem effectiveBatchSize_pos (m : Option Int) :
    1 ≤ (effectiveBatchSize m).toNat := by
  cases m with
  | none => simp [effectiveBatchSize]
  | some k =>
    simp only [effectiveBatchSize]
    split <;> omega

theorem plan_batches_eq_chunks (files : List String) (m : Option Int) :
    plan_batches files m = chunks (effectiveBatchSize m).toNat files := by
  obtain ⟨b, hb⟩ : ∃ b, (effectiveBatchSize m).toNat = b + 1 :=
    ⟨(effectiveBatchSize m).toNat - 1, by have := effectiveBatchSize_pos m; omega⟩
  simp only [plan_batches, hb]
  exact range'_map_slice_eq_chunks b files

theorem chunks_flatten (bs : ℕ) : ∀ l : List α, (chunks bs l).flatten = l
  | [] => by simp [chunks_nil]
  | x :: xs => by
    rw [chunks_cons, List.flatten_cons, chunks_flatten bs (xs.drop (bs - 1))]
    simp
termination_by l => l.length
decreasing_by
  simp only [List.length_drop, List.length_cons]
  omega

theorem chunks_sizes (bs : ℕ) (hbs : 1 ≤ bs) :
    ∀ l : List α, ∀ c ∈ chunks bs l, c ≠ [] ∧ c.length ≤ bs
  | [] => by simp [chunks_nil]
  | x :: xs => by
    intro c hc
    rw [chunks_cons] at hc
    rcases List.mem_cons.mp hc with h | h
    · subst h
      refine ⟨by simp, ?_⟩
      simp only [List.length_cons, List.length_take]
      omega
    · exact chunks_sizes bs hbs (xs.drop (bs - 1)) c h
termination_by l => l.length
decreasing_by
  simp only [List.length_drop, List.length_cons]
  omega

theorem chunks_dropLast_sizes (bs : ℕ) (hbs : 1 ≤ bs) :
    ∀ l : List α, ∀ c ∈ (chunks bs l).dropLast, c.length = bs
  | [] => by simp [chunks_nil]
  | x :: xs => by
    intro c hc
    rw [chunks_cons] at hc
    by_cases hrest : xs.drop (bs - 1) = []
    · rw [hrest, chunks_nil] at hc
      simp at hc
    · have hne : chunks bs (xs.drop (bs - 1)) ≠ [] :=
        fun h => hrest ((chunks_eq_nil_iff bs _).mp h)
      rw [List.dropLast_cons_of_ne_nil hne] at hc
      rcases List.mem_cons.mp hc with h | h
      · subst h
        have hlen : bs - 1 ≤ xs.length := by
          by_contra hcon
          exact hrest (List.drop_eq_nil_of_le (by omega))
        simp only [List.length_cons, List.length_take]
        omega
      · exact chunks_dropLast_sizes bs hbs (xs.drop (bs - 1)) c h
termination_by l => l.length
decreasing_by
  simp only [List.length_drop, List.length_cons]
  omega

/-- C3: batch planning is order-preserving and size-exact: the batches
concatenate back to the backlog; every batch is non-empty and of size at
most the effective batch size; every batch except possibly the last is
exactly full; an unset or non-positive `max_batch_size` yields singleton
batches; the empty backlog yields zero batches. -/
theorem C3_plan_batches_partition (files : List String) (m : Option Int) :
    (plan_batches files m).flatten = files ∧
    (∀ b ∈ plan_batches files m,
        b ≠ [] ∧ b.length ≤ (effectiveBatchSize m).toNat) ∧
    (∀ b ∈ (plan_batches files m).dropLast,
        b.length = (effectiveBatchSize m).toNat) ∧
    ((m = none ∨ ∃ k, m = some k ∧ k ≤ 0) →
        ∀ b ∈ plan_batches files m, b.length = 1) ∧
    plan_batches ([] : List String) m = [] := by
  have hbs := effectiveBatchSize_pos m
  rw [plan_batches_eq_chunks]
  refine ⟨chunks_flatten _ files, chunks_sizes _ hbs files,
    chunks_dropLast_sizes _ hbs files, ?_, ?_⟩
  · intro hm b hb
    have h1 : (effectiveBatchSize m).toNat = 1 := by
      rcases hm with rfl | ⟨k, rfl, hk⟩
      · simp [effectiveBatchSize]
      · have hk' : ¬ (0 : Int) < k := by omega
        simp [effectiveBatchSize, hk']
    rw [h1] at hb
    obtain ⟨hne, hle⟩ := chunks_sizes 1 le_rfl files b hb
    have hpos : 0 < b.length := List.length_pos.mpr hne
    omega
  · rw [plan_batches_eq_chunks, chunks_nil]

theorem C3_plan_batches_partition_witness :
    (plan_batches ["a", "b", "c"] (some 2)).flatten = ["a", "b", "c"] ∧
    (∀ b ∈ plan_batches ["a", "b", "c"] (some (-2)), b.length = 1) :=
  ⟨(C3_plan_batches_partition ["a", "b", "c"] (some 2)).1,
   (C3_plan_batches_partition ["a", "b", "c"] (some (-2))).2.2.2.1
     (Or.inr ⟨-2, rfl, by omega⟩)⟩

/-! ### Lemmas about the config rewrite -/

theorem lookup_map_update_ne (cfg : Config) (k : String) (v : JVal)
    (k' : String) (h : k' ≠ k) :
    (cfg.map fun p => if p.1 == k then (k, v) else p).lookup k'
      = cfg.lookup k' := by
  induction cfg with
  | nil => simp
  | cons a cfg ih =>
    obtain ⟨x, y⟩ := a
    by_cases hx : x = k
    · subst hx
      have hb1 : (k' == x) = false := beq_eq_false_iff_ne.mpr h
      simp only [beq_iff_eq] at ih
      simp [List.lookup_cons, hb1, ih]
    · have hb2 : ((x, y).1 == k) = false := beq_eq_false_iff_ne.mpr hx
      simp only [beq_iff_eq] at ih
      by_cases hx' : k' = x
      · subst hx'
        simp [List.lookup_cons, hb2, hx]
      · have hb3 : (k' == x) = false := beq_eq_false_iff_ne.mpr hx'
        simp [List.lookup_cons, hb2, hb3, hx, ih]

theorem lookup_map_update_self (cfg : Config) (k : String) (v : JVal)
    (hmem : cfg.any (fun p => p.1 == k) = true) :
    (cfg.map fun p => if p.1 == k then (k, v) else p).lookup k = some v := by
  induction cfg with
  | nil => simp at hmem
  | cons a cfg ih =>
    obtain ⟨x, y⟩ := a
    by_cases hx : x = k
    · subst hx
      simp
    · have hb2 : ((x, y).1 == k) = false := beq_eq_false_iff_ne.mpr hx
      have hmem' : cfg.any (fun p => p.1 == k) = true := by
        simp only [List.any_cons, hb2, Bool.false_or] at hmem
        exact hmem
      have hb3 : (k == x) = false :=
        beq_eq_false_iff_ne.mpr fun hq => hx hq.symm
      have ih' := ih hmem'
      simp only [beq_iff_eq] at ih'
      simp [List.lookup_cons, hb2, hb3, hx, ih']

theorem lookup_dictSet_self (cfg : Config) (k : String) (v : JVal) :
    (dictSet cfg k v).lookup k = some v := by
  unfold dictSet
  by_cases hmem : cfg.any (fun p => p.1 == k) = true
  · rw [if_pos hmem]
    exact lookup_map_update_self cfg k v hmem
  · rw [if_neg hmem]
    rw [List.lookup_append]
    have hnone : cfg.lookup k = none := by
      rw [List.lookup_eq_none_iff]
      intro p hp
      have hnp : ¬(p.1 == k) = true := fun hq =>
        hmem (List.any_eq_true.mpr ⟨p, hp, hq⟩)
      rw [beq_iff_eq] at hnp
      rw [bne_iff_ne]
      exact fun hq => hnp hq.symm
    simp [hnone]

theorem lookup_dictSet_ne (cfg : Config) (k : String) (v : JVal)
    (k' : String) (h : k' ≠ k) :
    (dictSet cfg k v).lookup k' = cfg.lookup k' := by
  unfold dictSet
  split
  · exact lookup_map_update_ne cfg k v k' h
  · rw [List.lookup_append]
    have hb1 : (k' == k) = false := beq_eq_false_iff_ne.mpr h
    have h2 : ([(k, v)] : Config).lookup k' = none := by
      simp [List.lookup_cons, hb1]
    rw [h2]
    cases cfg.lookup k' <;> simp

/-- C9: a successful-batch rewrite of the config changes only the
`last_processed_file` field, which is set to the batch's last document;
every other field — required, optional or extra — is passed through with
its value unchanged. -/
theorem C9_config_rewrite_frame (cfg : Config) (batch : List String)
    (hb : batch ≠ []) :
    (∀ k, k ≠ "last_processed_file" →
        (updateConfigAfterBatch cfg batch).lookup k = cfg.lookup k) ∧
    (updateConfigAfterBatch cfg batch).lookup "last_processed_file"
      = some (.str (batch.getLast hb)) := by
  constructor
  · intro k hk
    exact lookup_dictSet_ne cfg _ _ k hk
  · have hlt : batch.length - 1 < batch.length := by
      have := List.length_pos.mpr hb
      omega
    have hlast : batch.getLast! = batch.getLast hb := by
      calc batch.getLast!
          = batch[batch.length - 1]! := List.getLast!_eq_getElem!
        _ = batch[batch.length - 1] := getElem!_pos batch _ hlt
        _ = batch.getLast hb := (List.getLast_eq_getElem batch hb).symm
    rw [updateConfigAfterBatch, hlast]
    exact lookup_dictSet_self cfg _ _

theorem C9_config_rewrite_frame_witness :
    (updateConfigAfterBatch
        [("input_folder", .str "in"), ("last_processed_file", .null)]
        ["x", "y"]).lookup "input_folder" = some (.str "in") ∧
    (updateConfigAfterBatch
        [("input_folder", .str "in"), ("last_processed_file", .null)]
        ["x", "y"]).lookup "last_processed_file" = some (.str "y") :=
  ⟨(C9_config_rewrite_frame
      [("input_folder", .str "in"), ("last_processed_file", .null)]
      ["x", "y"] (by decide)).1 "input_folder" (by decide),
   (C9_config_rewrite_frame
      [("input_folder", .str "in"), ("last_processed_file", .null)]
      ["x", "y"] (by decide)).2⟩

/-! ### Provider dispatch and payload lemmas -/

/-- C6: `create_provider` dispatches by case-insensitive prefix: a `claude`
prefix yields the Anthropic provider, a `gpt`, `o1` or `o3` prefix yields
the OpenAI provider, and anything else fails with a `ValueError` whose
message names the identifier and the recognized prefixes; `"claude-x"`,
`"gpt-4o"` and `"mystery-model"` exercise the three cases. -/
theorem C6_create_provider_dispatch (env : String → Option String)
    (model : String) :
    (pyStartsWith (pyLower model) "claude" = true →
      ∀ key, env "ANTHROPIC_API_KEY" = some key → key ≠ "" →
        create_provider env model = .ok (.claude model)) ∧
    (pyStartsWith (pyLower model) "claude" = false →
      (pyStartsWith (pyLower model) "gpt" || pyStartsWith (pyLower model) "o1"
        || pyStartsWith (pyLower model) "o3") = true →
      ∀ key, env "OPENAI_API_KEY" = some key → key ≠ "" →
        create_provider env model = .ok (.openai model)) ∧
    (pyStartsWith (pyLower model) "claude" = false →
      (pyStartsWith (pyLower model) "gpt" || pyStartsWith (pyLower model) "o1"
        || pyStartsWith (pyLower model) "o3") = false →
      create_provider env model
        = .error ("Unknown model '" ++ model
            ++ "'. Model name must start with 'gpt', 'o1', 'o3' (OpenAI) or 'claude' (Anthropic)")) := by
  refine ⟨?_, ?_, ?_⟩
  · intro hc key hkey hne
    have hb : (key != "") = true := bne_iff_ne.mpr hne
    simp [create_provider, claudeInit, hc, hkey, hb]
  · intro hc ho key hkey hne
    have hb : (key != "") = true := bne_iff_ne.mpr hne
    simp [create_provider, openaiInit, hc, ho, hkey, hb]
  · intro hc ho
    simp [create_provider, unknownModelMsg, hc, ho]

theorem C6_create_provider_dispatch_witness :
    create_provider (fun _ => some "sk-test") "claude-x"
      = .ok (.claude "claude-x") ∧
    create_provider (fun _ => some "sk-test") "gpt-4o"
      = .ok (.openai "gpt-4o") ∧
    create_provider (fun _ => some "sk-test") "mystery-model"
      = .error ("Unknown model '" ++ "mystery-model"
          ++ "'. Model name must start with 'gpt', 'o1', 'o3' (OpenAI) or 'claude' (Anthropic)") :=
  ⟨(C6_create_provider_dispatch (fun _ => some "sk-test") "claude-x").1
      (by decide) "sk-test" rfl (by decide),
   (C6_create_provider_dispatch (fun _ => some "sk-test") "gpt-4o").2.1
      (by decide) (by decide) "sk-test" rfl (by decide),
   (C6_create_provider_dispatch (fun _ => some "sk-test") "mystery-model").2.2
      (by decide) (by decide)⟩

/-- C7: for each provider variant, `process` and `estimate_tokens` build the
same composite payload — prompt first, then the labeled content section —
so every token estimate (exact or fallback) is computed over exactly the
text that `process` sends to the remote model. -/
theorem C7_payload_equivalence (content prompt : String) :
    (∀ api, openaiProcess api content prompt
        = api (openaiSentText content prompt)) ∧
    (∀ enc : String → ℕ, ∀ model,
        openaiEstimateTokens (some ⟨fun _ => some enc, fun _ => enc⟩)
            model content prompt
          = enc (openaiSentText content prompt)) ∧
    (∀ model, openaiEstimateTokens none model content prompt
        = (openaiSentText content prompt).length / 4) ∧
    (∀ api, claudeProcess api content prompt
        = api (claudeSentText content prompt)) ∧
    (∀ count_tokens : String → Except String ℕ,
        claudeEstimateTokens count_tokens content prompt
          = match count_tokens (claudeSentText content prompt) with
            | .ok n => n
            | .error _ => (claudeSentText content prompt).length / 4) ∧
    claudeSentText content prompt = openaiSentText content prompt :=
  ⟨fun _ => rfl, fun _ _ => rfl, fun _ => rfl, fun _ => rfl, fun _ => rfl, rfl⟩

/-- C8: `estimate_tokens` is total for both variants, and whenever exact
tokenization is unavailable — the tokenizer library missing for the OpenAI
variant, the remote counting call failing for the Claude variant — it
returns the composite payload's character length integer-divided by 4. -/
theorem C8_estimate_tokens_fallback (content prompt : String) :
    (∀ tiktoken model, ∃ n : ℕ,
        openaiEstimateTokens tiktoken model content prompt = n) ∧
    (∀ count_tokens : String → Except String ℕ, ∃ n : ℕ,
        claudeEstimateTokens count_tokens content prompt = n) ∧
    (∀ model, openaiEstimateTokens none model content prompt
        = (prompt ++ "\n\nContent:\n" ++ content).length / 4) ∧
    (∀ count_tokens : String → Except String ℕ, ∀ e,
        count_tokens (prompt ++ "\n\nContent:\n" ++ content) = .error e →
        claudeEstimateTokens count_tokens content prompt
          = (prompt ++ "\n\nContent:\n" ++ content).length / 4) := by
  refine ⟨fun tiktoken model => ⟨_, rfl⟩, fun count_tokens => ⟨_, rfl⟩,
    fun model => rfl, fun count_tokens e he => ?_⟩
  simp [claudeEstimateTokens, he]

theorem C8_estimate_tokens_fallback_witness :
    claudeEstimateTokens (fun _ => .error "api down") "journal text" "summarize"
      = ("summarize" ++ "\n\nContent:\n" ++ "journal text").length / 4 :=
  (C8_estimate_tokens_fallback "journal text" "summarize").2.2.2
    (fun _ => .error "api down") "api down" rfl

/-! ### Lemmas about document enumeration -/

theorem indexOf_getElem_of_nodup {l : List String} (hnd : l.Nodup)
    (i : ℕ) (h : i < l.length) : l.indexOf l[i] = i := by
  induction l generalizing i with
  | nil => simp at h
  | cons a l ih =>
    obtain ⟨hna, hndl⟩ := List.nodup_cons.mp hnd
    cases i with
    | zero =>
      simp [List.indexOf_cons]
    | succ n =>
      have hn : n < l.length := by simpa using h
      have hmem : l[n] ∈ l := List.getElem_mem hn
      have hne : (a == l[n]) = false :=
        beq_eq_false_iff_ne.mpr fun he => hna (he ▸ hmem)
      simp [List.indexOf_cons, hne, ih hndl n hn]

/-- A cursor equal to the entry at index `i` of the sorted path list makes
`_get_input_files` return exactly the suffix after that index. -/
theorem get_input_files_at_index (docs : List Doc) (i : ℕ)
    (hnd : (sortedPaths docs).Nodup)
    (hi : i < (sortedPaths docs).length)
    (hne : (sortedPaths docs)[i] ≠ "") :
    get_input_files docs (some ((sortedPaths docs)[i])) none
      = (sortedPaths docs).drop (i + 1) := by
  have hb1 : ((sortedPaths docs)[i] != "") = true := bne_iff_ne.mpr hne
  have hmem : (sortedPaths docs)[i] ∈ sortedPaths docs := List.getElem_mem hi
  have hc : (sortedPaths docs).contains (sortedPaths docs)[i] = true :=
    List.elem_iff.mpr hmem
  simp only [get_input_files, hb1, hc, Bool.and_self, if_true,
    indexOf_getElem_of_nodup hnd i hi]

/-- C10: an empty-string cursor behaves exactly like an absent cursor:
Python truthiness short-circuits the filter branch, so the full sorted list
is returned. -/
theorem C10_empty_cursor_like_absent (docs : List Doc)
    (max_batch_size : Option Int) :
    get_input_files docs (some "") max_batch_size
      = get_input_files docs none max_batch_size := by
  simp [get_input_files]

/-- C5: an absent cursor, or a cursor that is not the path of any discovered
document, makes `_get_input_files` return the full sorted path list — the
fail-open policy: nothing is blocked and nothing is excluded. -/
theorem C5_fail_open (docs : List Doc) (last_processed : Option String)
    (hmiss : last_processed = none ∨
      ∃ p, last_processed = some p ∧ ∀ d ∈ docs, d.path ≠ p) :
    get_input_files docs last_processed none = sortedPaths docs := by
  rcases hmiss with rfl | ⟨p, rfl, hp⟩
  · simp [get_input_files]
  · have hnc : (sortedPaths docs).contains p = false := by
      rw [Bool.eq_false_iff]
      intro hcon
      have hpm : p ∈ sortedPaths docs := List.elem_iff.mp hcon
      obtain ⟨d, hd, hdp⟩ := List.mem_map.mp hpm
      have hd' : d ∈ docs := (List.mergeSort_perm docs mtimeLe).mem_iff.mp hd
      exact hp d hd' hdp
    have hcond : (p != "" && (sortedPaths docs).contains p) = false := by
      rw [hnc, Bool.and_false]
    simp only [get_input_files, hcond, Bool.false_eq_true, if_false]

/-- A discovery list already in ascending modification-time order sorts to
itself, making the pipeline evaluable on concrete sorted inputs. -/
theorem sortedPaths_of_sorted {docs : List Doc}
    (h : docs.Pairwise fun a b => mtimeLe a b) :
    sortedPaths docs = docs.map Doc.path := by
  rw [sortedPaths, sortedDocs, List.mergeSort_of_sorted h]

theorem C5_fail_open_witness :
    get_input_files [⟨"a.md", 1⟩, ⟨"b.md", 2⟩] (some "deleted.md") none
      = ["a.md", "b.md"] := by
  rw [C5_fail_open [⟨"a.md", 1⟩, ⟨"b.md", 2⟩] (some "deleted.md")
    (Or.inr ⟨"deleted.md", rfl, by decide⟩)]
  rw [sortedPaths_of_sorted (by decide)]
  decide

theorem mtimeLe_trans : ∀ a b c : Doc, mtimeLe a b → mtimeLe b c → mtimeLe a c := by
  intro a b c
  simp only [mtimeLe, decide_eq_true_eq]
  omega

theorem mtimeLe_total : ∀ a b : Doc, mtimeLe a b || mtimeLe b a := by
  intro a b
  simp only [mtimeLe, Bool.or_eq_true, decide_eq_true_eq]
  omega

/-- C4: the backlog without a cursor is the full document list sorted
ascending by modification time — stable on ties, strictly ascending when
the times are distinct — and a cursor equal to the Nth document (1-indexed)
of the sorted order yields exactly the suffix after position N, of length
`len(all) - N`. -/
theorem C4_backlog_sorted_and_suffix (docs : List Doc) :
    (get_input_files docs none none = sortedPaths docs) ∧
    (sortedDocs docs).Pairwise (fun a b => a.mtime ≤ b.mtime) ∧
    (∀ t : Int, (sortedDocs docs).filter (fun d => d.mtime == t)
        = docs.filter (fun d => d.mtime == t)) ∧
    ((docs.map Doc.mtime).Nodup →
        (sortedDocs docs).Pairwise (fun a b => a.mtime < b.mtime)) ∧
    (∀ N : ℕ, (sortedPaths docs).Nodup → 1 ≤ N →
        N ≤ (sortedPaths docs).length →
        (sortedPaths docs).getD (N - 1) "" ≠ "" →
        get_input_files docs (some ((sortedPaths docs).getD (N - 1) "")) none
          = (sortedPaths docs).drop N ∧
        (get_input_files docs
            (some ((sortedPaths docs).getD (N - 1) "")) none).length
          = (sortedPaths docs).length - N) := by
  have hpair : (sortedDocs docs).Pairwise fun a b => mtimeLe a b :=
    List.sorted_mergeSort mtimeLe_trans mtimeLe_total docs
  refine ⟨rfl, ?_, ?_, ?_, ?_⟩
  · exact hpair.imp fun h => by simpa [mtimeLe] using h
  · intro t
    set p : Doc → Bool := fun d => d.mtime == t with hp
    have hmemp : ∀ d ∈ docs.filter p, p d := fun d hd =>
      (List.mem_filter.mp hd).2
    have hcpair : (docs.filter p).Pairwise fun a b => mtimeLe a b := by
      apply List.pairwise_of_forall_mem_list
      intro a ha b hb
      have ha' : a.mtime = t := by simpa [hp] using hmemp a ha
      have hb' : b.mtime = t := by simpa [hp] using hmemp b hb
      simp [mtimeLe, ha', hb']
    have hsub : List.Sublist (docs.filter p) (List.mergeSort docs mtimeLe) :=
      List.sublist_mergeSort mtimeLe_trans mtimeLe_total hcpair
        (List.filter_sublist docs)
    have hsub2 : List.Sublist (docs.filter p)
        ((List.mergeSort docs mtimeLe).filter p) := by
      have := hsub.filter p
      rwa [List.filter_filter, show (fun a => p a && p a) = p from by
        funext a; cases p a <;> simp] at this
    have hlen : ((List.mergeSort docs mtimeLe).filter p).length
        = (docs.filter p).length :=
      ((List.mergeSort_perm docs mtimeLe).filter p).length_eq
    exact ((hsub2.eq_of_length hlen.symm)).symm
  · intro hnd
    have hndsort : ((sortedDocs docs).map Doc.mtime).Nodup :=
      (((List.mergeSort_perm docs mtimeLe).map Doc.mtime).nodup_iff).mpr hnd
    have hne : (sortedDocs docs).Pairwise fun a b => a.mtime ≠ b.mtime :=
      List.pairwise_map.mp hndsort
    exact (hpair.and hne).imp fun ⟨h1, h2⟩ => by
      simp only [mtimeLe, decide_eq_true_eq] at h1
      omega
  · intro N hnd hN1 hNlen hne
    have hlt : N - 1 < (sortedPaths docs).length := by omega
    have hD : (sortedPaths docs).getD (N - 1) "" = (sortedPaths docs)[N - 1] := by
      rw [List.getD_eq_getElem?_getD, List.getElem?_eq_getElem hlt]
      rfl
    rw [hD] at hne ⊢
    have h1 := get_input_files_at_index docs (N - 1) hnd hlt hne
    have hNN : N - 1 + 1 = N := by omega
    rw [hNN] at h1
    refine ⟨h1, ?_⟩
    rw [h1, List.length_drop]

theorem C4_backlog_sorted_and_suffix_witness :
    get_input_files [⟨"a.md", 1⟩, ⟨"b.md", 2⟩, ⟨"c.md", 3⟩]
        (some "b.md") none = ["c.md"] ∧
    (sortedDocs [⟨"a.md", 1⟩, ⟨"b.md", 2⟩, ⟨"c.md", 3⟩]).Pairwise
        (fun a b => a.mtime ≤ b.mtime) := by
  have hs : sortedPaths [⟨"a.md", 1⟩, ⟨"b.md", 2⟩, ⟨"c.md", 3⟩]
      = ["a.md", "b.md", "c.md"] := sortedPaths_of_sorted (by decide)
  have h := C4_backlog_sorted_and_suffix [⟨"a.md", 1⟩, ⟨"b.md", 2⟩, ⟨"c.md", 3⟩]
  refine ⟨?_, h.2.1⟩
  have h5 := h.2.2.2.2 2 (by rw [hs]; decide) (by decide)
    (by rw [hs]; decide) (by rw [hs]; decide)
  have hcur : (sortedPaths [⟨"a.md", 1⟩, ⟨"b.md", 2⟩, ⟨"c.md", 3⟩]).getD 1 ""
      = "b.md" := by rw [hs]; decide
  rw [hcur] at h5
  rw [h5.1, hs]
  decide

/-! ### Lemmas about the run loop and failure recovery -/

theorem getD_eq_headD_drop (l : List α) (n : ℕ) (d : α) :
    l.getD n d = (l.drop n).headD d := by
  induction l generalizing n with
  | nil => cases n <;> simp
  | cons a l ih =>
    cases n with
    | zero => simp
    | succ n =>
      simp only [List.getD_cons_succ, List.drop_succ_cons]
      exact ih n

theorem getD_drop (l : List α) (t n : ℕ) (d : α) :
    (l.drop t).getD n d = l.getD (t + n) d := by
  rw [List.getD_eq_getElem?_getD, List.getD_eq_getElem?_getD,
    List.getElem?_drop]

theorem chunks_drop (bs : ℕ) (hbs : 1 ≤ bs) :
    ∀ (j : ℕ) (l : List α), (chunks bs l).drop j = chunks bs (l.drop (j * bs))
  | 0, l => by simp
  | j + 1, l => by
    cases l with
    | nil => simp [chunks_nil]
    | cons x xs =>
      rw [chunks_cons]
      have h1 : ((x :: xs.take (bs - 1)) :: chunks bs (xs.drop (bs - 1))).drop (j + 1)
          = (chunks bs (xs.drop (bs - 1))).drop j := by
        simp
      rw [h1, chunks_drop bs hbs j (xs.drop (bs - 1)), List.drop_drop]
      have h2 : (x :: xs).drop ((j + 1) * bs) = xs.drop (bs - 1 + j * bs) := by
        have h3 : (j + 1) * bs = (bs - 1 + j * bs) + 1 := by
          rw [Nat.add_mul, Nat.one_mul]
          omega
        rw [h3]
        rfl
      rw [h2]

theorem chunks_length_lt_iff (bs : ℕ) (hbs : 1 ≤ bs) (l : List α) (j : ℕ) :
    j < (chunks bs l).length ↔ j * bs < l.length := by
  constructor
  · intro h
    by_contra hcon
    have hnil : l.drop (j * bs) = [] := List.drop_eq_nil_iff.mpr (by omega)
    have : (chunks bs l).drop j = [] := by
      rw [chunks_drop bs hbs j l, hnil, chunks_nil]
    rw [List.drop_eq_nil_iff] at this
    omega
  · intro h
    by_contra hcon
    have hnil : (chunks bs l).drop j = [] := List.drop_eq_nil_iff.mpr (by omega)
    rw [chunks_drop bs hbs j l] at hnil
    rw [chunks_eq_nil_iff, List.drop_eq_nil_iff] at hnil
    omega

theorem chunks_getD (bs : ℕ) (hbs : 1 ≤ bs) (l : List α) (j : ℕ) :
    (chunks bs l).getD j [] = (l.drop (j * bs)).take bs := by
  rw [getD_eq_headD_drop, chunks_drop bs hbs j l]
  obtain ⟨b, rfl⟩ : ∃ b, bs = b + 1 := ⟨bs - 1, by omega⟩
  cases h : l.drop (j * (b + 1)) with
  | nil => simp [chunks_nil]
  | cons y ys =>
    rw [chunks_cons]
    simp

theorem getLast!_take_drop (l : List String) (i bs : ℕ) (hbs : 1 ≤ bs)
    (hle : i + bs ≤ l.length) :
    ((l.drop i).take bs).getLast! = l.getD (i + bs - 1) "" := by
  have hlen : ((l.drop i).take bs).length = bs := by
    simp only [List.length_take, List.length_drop]
    omega
  have hidx : i + bs - 1 < l.length := by omega
  have hq : ((l.drop i).take bs)[bs - 1]? = some (l.getD (i + bs - 1) "") := by
    rw [List.getElem?_take_of_lt (by omega : bs - 1 < bs), List.getElem?_drop,
      List.getD_eq_getElem?_getD, List.getElem?_eq_getElem (by omega : i + (bs - 1) < l.length),
      List.getElem?_eq_getElem hidx]
    simp only [Option.getD_some, Option.some.injEq]
    congr 1
    omega
  rw [List.getLast!_eq_getElem!, hlen, List.getElem!_of_getElem? hq]

theorem runLoop_spec (process : List String → Option String) :
    ∀ (batches : List (List String)) (c₀ : Option String) (k : ℕ),
      1 ≤ k → k ≤ batches.length →
      (∀ i, i < k - 1 → (process (batches.getD i [])).isSome = true) →
      process (batches.getD (k - 1) []) = none →
      runLoop process batches c₀
        = (if k = 1 then c₀
           else some ((batches.getD (k - 2) []).getLast!), k)
  | [], c₀, k, hk1, hklen, _, _ => by
    simp at hklen
    omega
  | b :: bs, c₀, k, hk1, hklen, hsucc, hfail => by
    by_cases hk : k = 1
    · subst hk
      simp only [Nat.sub_self, List.getD_cons_zero] at hfail
      simp [runLoop, hfail]
    · have hk2 : 2 ≤ k := by omega
      have hb : (process b).isSome = true := by
        have := hsucc 0 (by omega)
        simpa using this
      obtain ⟨out, hout⟩ := Option.isSome_iff_exists.mp hb
      have hsucc' : ∀ i, i < (k - 1) - 1 →
          (process (bs.getD i [])).isSome = true := by
        intro i hi
        have := hsucc (i + 1) (by omega)
        simpa using this
      have hfail' : process (bs.getD ((k - 1) - 1) []) = none := by
        have he : k - 1 = ((k - 1) - 1) + 1 := by omega
        rw [he, List.getD_cons_succ] at hfail
        exact hfail
      have ih := runLoop_spec process bs (some b.getLast!) (k - 1)
        (by omega) (by simp at hklen; omega) hsucc' hfail'
      have hstep : runLoop process (b :: bs) c₀
          = ((runLoop process bs (some b.getLast!)).1,
             (runLoop process bs (some b.getLast!)).2 + 1) := by
        simp [runLoop, hout]
      rw [hstep, ih]
      by_cases hk3 : k = 2
      · subst hk3
        simp
      · have he2 : k - 2 = (k - 3) + 1 := by omega
        have hif1 : ¬(k - 1 = 1) := by omega
        simp only [if_neg hif1, if_neg hk, Prod.mk.injEq]
        constructor
        · refine congrArg some (congrArg List.getLast! ?_)
          rw [he2, List.getD_cons_succ]
          have he3 : k - 1 - 2 = k - 3 := by omega
          rw [he3]
        · omega

/-- With no batch limit, `_get_input_files` always returns a suffix of the
sorted path list: everything (cursor absent, empty or unmatched) or the part
strictly after the cursor's index. -/
theorem get_input_files_none_suffix (docs : List Doc) (lp : Option String) :
    ∃ t, get_input_files docs lp none = (sortedPaths docs).drop t := by
  cases lp with
  | none => exact ⟨0, rfl⟩
  | some p =>
    cases hcond : (p != "" && (sortedPaths docs).contains p) with
    | true =>
      refine ⟨(sortedPaths docs).indexOf p + 1, ?_⟩
      simp only [get_input_files, hcond, if_true]
    | false =>
      refine ⟨0, ?_⟩
      simp only [get_input_files, hcond, Bool.false_eq_true, if_false,
        List.drop_zero]

/-- C2: if the first `k-1` batches succeed and batch `k` fails, the run
attempts exactly `k` batches (nothing after the failure), the persisted
cursor equals the last document of batch `k-1` (the pre-run cursor when
`k = 1`), and a subsequent run over the unchanged document set plans
exactly the remaining batches, starting with batch `k`. -/
theorem C2_failure_stops_and_preserves_checkpoint
    (docs : List Doc) (cursor₀ : Option String) (m : Option Int)
    (process : List String → Option String)
    (backlog : List String) (batches : List (List String)) (k : ℕ)
    (hbacklog : backlog = get_input_files docs cursor₀ none)
    (hbatches : batches = plan_batches backlog m)
    (hnd : (sortedPaths docs).Nodup)
    (hpaths : ∀ d ∈ docs, d.path ≠ "")
    (hk1 : 1 ≤ k) (hklen : k ≤ batches.length)
    (hsucc : ∀ i, i < k - 1 → (process (batches.getD i [])).isSome = true)
    (hfail : process (batches.getD (k - 1) []) = none) :
    runLoop process batches cursor₀
      = (if k = 1 then cursor₀
         else some ((batches.getD (k - 2) []).getLast!), k) ∧
    plan_batches (get_input_files docs
        (runLoop process batches cursor₀).1 none) m
      = batches.drop (k - 1) ∧
    (plan_batches (get_input_files docs
        (runLoop process batches cursor₀).1 none) m).headD []
      = batches.getD (k - 1) [] := by
  have h1 := runLoop_spec process batches cursor₀ k hk1 hklen hsucc hfail
  have hbs : 1 ≤ (effectiveBatchSize m).toNat := effectiveBatchSize_pos m
  have h2 : plan_batches (get_input_files docs
      (runLoop process batches cursor₀).1 none) m = batches.drop (k - 1) := by
    by_cases hk : k = 1
    · subst hk
      have hfst : ((if (1 : ℕ) = 1 then cursor₀
          else some ((batches.getD (1 - 2) []).getLast!), 1) :
            Option String × ℕ).1 = cursor₀ := by simp
      rw [h1, hfst, ← hbacklog, ← hbatches]
      simp
    · have hk2 : 2 ≤ k := by omega
      have hjlt : k - 1 < batches.length := by omega
      have hchunks : batches = chunks (effectiveBatchSize m).toNat backlog := by
        rw [hbatches, plan_batches_eq_chunks]
      have hjbs : (k - 1) * (effectiveBatchSize m).toNat < backlog.length := by
        rw [hchunks] at hjlt
        exact (chunks_length_lt_iff _ hbs backlog (k - 1)).mp hjlt
      have hq1 : 1 ≤ (k - 1) * (effectiveBatchSize m).toNat := by
        have := Nat.mul_le_mul (show 1 ≤ k - 1 by omega) hbs
        simpa using this
      have hsplit : (k - 2) * (effectiveBatchSize m).toNat
          + (effectiveBatchSize m).toNat
          = (k - 1) * (effectiveBatchSize m).toNat := by
        have he : k - 1 = (k - 2) + 1 := by omega
        rw [he, Nat.add_mul, Nat.one_mul]
      have hgetD : batches.getD (k - 2) []
          = (backlog.drop ((k - 2) * (effectiveBatchSize m).toNat)).take
              (effectiveBatchSize m).toNat := by
        rw [hchunks]
        exact chunks_getD _ hbs backlog (k - 2)
      have hle : (k - 2) * (effectiveBatchSize m).toNat
          + (effectiveBatchSize m).toNat ≤ backlog.length := by omega
      have hlastval : (batches.getD (k - 2) []).getLast!
          = backlog.getD ((k - 1) * (effectiveBatchSize m).toNat - 1) "" := by
        rw [hgetD, getLast!_take_drop backlog _ _ hbs hle, hsplit]
      obtain ⟨t, ht⟩ := get_input_files_none_suffix docs cursor₀
      have hbacklog' : backlog = (sortedPaths docs).drop t := by
        rw [hbacklog, ht]
      have hlenb : backlog.length = (sortedPaths docs).length - t := by
        rw [hbacklog']
        simp
      have hi0 : t + ((k - 1) * (effectiveBatchSize m).toNat - 1)
          < (sortedPaths docs).length := by omega
      have hcursorval : backlog.getD
          ((k - 1) * (effectiveBatchSize m).toNat - 1) ""
          = (sortedPaths docs)[t + ((k - 1) * (effectiveBatchSize m).toNat - 1)] := by
        rw [hbacklog', getD_drop, List.getD_eq_getElem?_getD,
          List.getElem?_eq_getElem hi0]
        rfl
      have hmem : (sortedPaths docs)[t + ((k - 1) * (effectiveBatchSize m).toNat - 1)]
          ∈ sortedPaths docs := List.getElem_mem hi0
      have hne0 : (sortedPaths docs)[t + ((k - 1) * (effectiveBatchSize m).toNat - 1)]
          ≠ "" := by
        obtain ⟨d, hd, hdp⟩ := List.mem_map.mp hmem
        have hd' : d ∈ docs := (List.mergeSort_perm docs mtimeLe).mem_iff.mp hd
        rw [← hdp]
        exact hpaths d hd'
      have hsuffix := get_input_files_at_index docs
        (t + ((k - 1) * (effectiveBatchSize m).toNat - 1)) hnd hi0 hne0
      have hc1 : (runLoop process batches cursor₀).1
          = some ((batches.getD (k - 2) []).getLast!) := by
        rw [h1]
        simp [hk]
      rw [hc1, hlastval, hcursorval, hsuffix]
      have hidx : t + ((k - 1) * (effectiveBatchSize m).toNat - 1) + 1
          = t + (k - 1) * (effectiveBatchSize m).toNat := by omega
      rw [hidx]
      have hdd : (sortedPaths docs).drop (t + (k - 1) * (effectiveBatchSize m).toNat)
          = backlog.drop ((k - 1) * (effectiveBatchSize m).toNat) := by
        rw [hbacklog', List.drop_drop]
      rw [hdd, plan_batches_eq_chunks, ← chunks_drop _ hbs (k - 1) backlog,
        ← hchunks]
  refine ⟨h1, h2, ?_⟩
  rw [h2]
  exact (getD_eq_headD_drop batches (k - 1) []).symm

theorem C2_failure_stops_witness :
    runLoop (fun b => if b = ["b.md"] then none else some "ok")
        [["a.md"], ["b.md"], ["c.md"]] none = (some "a.md", 2) := by
  have hbacklog : ["a.md", "b.md", "c.md"]
      = get_input_files [⟨"a.md", 1⟩, ⟨"b.md", 2⟩, ⟨"c.md", 3⟩] none none := by
    have h0 : get_input_files [⟨"a.md", 1⟩, ⟨"b.md", 2⟩, ⟨"c.md", 3⟩] none none
        = sortedPaths [⟨"a.md", 1⟩, ⟨"b.md", 2⟩, ⟨"c.md", 3⟩] := rfl
    rw [h0, sortedPaths_of_sorted (by decide)]
    decide
  have h := C2_failure_stops_and_preserves_checkpoint
    [⟨"a.md", 1⟩, ⟨"b.md", 2⟩, ⟨"c.md", 3⟩] none (some 1)
    (fun b => if b = ["b.md"] then none else some "ok")
    ["a.md", "b.md", "c.md"] [["a.md"], ["b.md"], ["c.md"]] 2
    hbacklog (by decide)
    (by rw [sortedPaths_of_sorted (by decide)]; decide)
    (by decide) (by decide) (by decide)
    (fun i hi => by
      have hi0 : i = 0 := by omega
      subst hi0
      decide)
    (by decide)
  rw [h.1]
  decide

/-! ### Checkpoint persistence is a plain rewrite, not an atomic replace -/

/-- C1 counterexample: `_save_config` opens the config for writing (which
truncates it) and then writes; interrupting between the truncation and the
write leaves the empty file — neither the old nor the new content — so the
commit is not an atomic replace. -/
theorem C1_checkpoint_not_atomic_counterexample :
    ¬ atomicReplace "old-config" (saveConfigOps "new-config") "new-config" := by
  decide

/-- C1 (amended): the checkpoint commit is a full rewrite of the stored
config — a completed `_save_config` leaves exactly the new serialized
content, and the checkpoint is never written on a failed batch — but it is
performed by truncate-then-write in place, not write-to-temp-then-rename:
an interruption between write-begin and write-end can leave a state (the
truncated empty file) that is neither the old nor the new content. -/
theorem C1_checkpoint_full_rewrite_not_atomic (old data : String)
    (hold : old ≠ "") (hdata : data ≠ "") :
    ((saveConfigOps data).foldl applyOp old = data) ∧
    (∃ s ∈ crashStates old (saveConfigOps data), s ≠ old ∧ s ≠ data) ∧
    (¬ atomicReplace old (saveConfigOps data) data) ∧
    (∀ (process : List String → Option String) (b : List String)
        (bs : List (List String)) (c₀ : Option String),
      process b = none → (runLoop process (b :: bs) c₀).1 = c₀) := by
  have hcs : crashStates old (saveConfigOps data) = [old, "", "" ++ data] := rfl
  have hmem : "" ∈ crashStates old (saveConfigOps data) := by
    rw [hcs]
    simp
  refine ⟨?_, ⟨"", hmem, Ne.symm hold, Ne.symm hdata⟩, ?_, ?_⟩
  · simp [saveConfigOps, applyOp]
  · intro h
    rcases h "" hmem with h' | h'
    · exact hold h'.symm
    · exact hdata h'.symm
  · intro process b bs c₀ hfail
    simp [runLoop, hfail]

theorem C1_checkpoint_full_rewrite_witness :
    ((saveConfigOps "new-config").foldl applyOp "old-config" = "new-config") ∧
    (¬ atomicReplace "old-config" (saveConfigOps "new-config") "new-config") :=
  ⟨(C1_checkpoint_full_rewrite_not_atomic "old-config" "new-config"
      (by decide) (by decide)).1,
   (C1_checkpoint_full_rewrite_not_atomic "old-config" "new-config"
      (by decide) (by decide)).2.2.1⟩
